import Mathlib

/-!
Shallow embedding of src/graph/unionFind.cpp (struct union_find):
a disjoint-set union with path compression, union by size, and
per-component (min, max) aggregates.

Modelling choices:
* C++ vectors become Lists; a vector write becomes List.set (on the states
  the theorems quantify over every written index is in bounds, where the two
  agree with the C++ behaviour).
* Reading repr out of range is undefined behaviour in C++; the model returns
  the index itself there. Valid indices of valid states never exercise this.
* All int values occurring in valid states are non-negative, so Nat models
  them; the constructor keeps an Int argument so that calls with a negative
  element count are representable.
* The recursive member function find is modelled with explicit fuel, one
  unit per recursive call; fuel = number of elements is proved sufficient on
  every reachable state (that sufficiency is the termination argument).
-/

structure union_find where
  component_size : List Nat
  repr : List Nat
  additionalInfo : List (Nat × Nat)
deriving DecidableEq

namespace union_find

/-- The C++ constructor union_find(int number_of_elements): for each i in
0..number_of_elements-1 it pushes repr entry i, size 1 and aggregate (i, i).
A negative count makes the loop run zero times, exactly like count 0. -/
def init (number_of_elements : Int) : union_find where
  component_size := List.replicate number_of_elements.toNat 1
  repr := List.range number_of_elements.toNat
  additionalInfo := (List.range number_of_elements.toNat).map fun i => (i, i)

/-- One step of the representative walk: the stored parent repr[a]
(out of range: the index itself, see the header comment). -/
def step (uf : union_find) (a : Nat) : Nat := uf.repr.getD a a

/-- a is a canonical representative: repr[a] == a. -/
def isRoot (uf : union_find) (a : Nat) : Prop := uf.step a = a

instance (uf : union_find) (a : Nat) : Decidable (uf.isRoot a) := Nat.decEq _ _

/-- k-fold iteration of the stored-parent walk. -/
def iterStep (uf : union_find) (k : Nat) (a : Nat) : Nat := (uf.step)^[k] a

/-- r is the representative of a's component: the walk from a reaches r and
r is a fixed point of repr. -/
def Rooted (uf : union_find) (a r : Nat) : Prop :=
  (∃ k, uf.iterStep k a = r) ∧ uf.isRoot r

/-- Executable representative: iterate the walk (number of elements) times;
on well-formed states this reaches the unique fixed point. -/
def rootOf (uf : union_find) (a : Nat) : Nat := uf.iterStep uf.repr.length a

/-- The component of r: all valid elements whose representative is r. -/
def comp (uf : union_find) (r : Nat) : Finset Nat :=
  (Finset.range uf.repr.length).filter fun i => uf.rootOf i = r

/-- The stored size entry at index i. -/
def sizeAt (uf : union_find) (i : Nat) : Nat := uf.component_size.getD i 0

/-- The stored aggregate entry at index i. -/
def infoAt (uf : union_find) (i : Nat) : Nat × Nat := uf.additionalInfo.getD i (0, 0)

/-- The recursive member function find with explicit fuel. Source:
  if (repr[a] == a) return a;
  repr[a] = find(repr[a]);
  return repr[a]; -/
def findAux : Nat → union_find → Nat → Nat × union_find
  | 0, uf, a => (a, uf)
  | fuel + 1, uf, a =>
    if uf.step a = a then (a, uf)
    else
      let res := findAux fuel uf (uf.step a)
      (res.1, { res.2 with repr := res.2.repr.set a res.1 })

/-- int find(int a), fuel fixed to the element count (proved sufficient on
every reachable state). Returns the representative and the compressed
state. -/
def find (uf : union_find) (a : Nat) : Nat × union_find :=
  findAux uf.repr.length uf a

/-- The tail of void merge(int gravity, int pebble) once both arguments are
resolved to distinct representatives g1 and p1: size-heuristic swap,
re-point, add sizes, zero the absorbed size, combine the (min, max)
aggregates. -/
def mergeLink (uf2 : union_find) (g1 p1 : Nat) : union_find :=
  let gp := if uf2.component_size.getD p1 0 > uf2.component_size.getD g1 0
    then (p1, g1) else (g1, p1)
  let uf3 := { uf2 with repr := uf2.repr.set gp.2 gp.1 }
  let newSizes :=
    (uf3.component_size.set gp.1
      (uf3.component_size.getD gp.1 0 + uf3.component_size.getD gp.2 0)).set gp.2 0
  let uf4 := { uf3 with component_size := newSizes }
  let newInfo := uf4.additionalInfo.set gp.1
    (min (uf4.additionalInfo.getD gp.1 (0, 0)).1 (uf4.additionalInfo.getD gp.2 (0, 0)).1,
     max (uf4.additionalInfo.getD gp.1 (0, 0)).2 (uf4.additionalInfo.getD gp.2 (0, 0)).2)
  { uf4 with additionalInfo := newInfo }

/-- void merge(int gravity, int pebble): resolve both representatives,
stop if equal, else perform the mergeLink writes. -/
def merge (uf : union_find) (gravity pebble : Nat) : union_find :=
  let res1 := uf.find gravity
  let res2 := res1.2.find pebble
  if res1.1 = res2.1 then res2.2
  else mergeLink res2.2 res1.1 res2.1

/-- int size(int a): find the representative, then read its stored size.
Returns the value and the (possibly compressed) state. -/
def size (uf : union_find) (a : Nat) : Nat × union_find :=
  let res := uf.find a
  (res.2.component_size.getD res.1 0, res.2)

/-- bool get(int u, int v): same-component test. Returns the answer and the
(possibly compressed) state. -/
def get (uf : union_find) (u v : Nat) : Bool × union_find :=
  let res1 := uf.find u
  let res2 := res1.2.find v
  (decide (res1.1 = res2.1), res2.2)

/-- int count_islands(): count the entries of component_size that are > 0. -/
def count_islands (uf : union_find) : Nat :=
  uf.component_size.foldl (fun count el => if el > 0 then count + 1 else count) 0

/-- States reachable from the constructor by the mutating operations with
valid arguments. size and get mutate only through find, whose resulting
states the find constructor covers. -/
inductive Reachable : union_find → Prop
  | init (number_of_elements : Int) : Reachable (union_find.init number_of_elements)
  | merge {uf : union_find} (x y : Nat) : Reachable uf →
      x < uf.repr.length → y < uf.repr.length → Reachable (uf.merge x y)
  | find {uf : union_find} (a : Nat) : Reachable uf →
      a < uf.repr.length → Reachable (uf.find a).2

/-! Basic facts about the iterated parent walk. -/

theorem iterStep_zero (uf : union_find) (a : Nat) : uf.iterStep 0 a = a := rfl

theorem iterStep_succ (uf : union_find) (k a : Nat) :
    uf.iterStep (k + 1) a = uf.iterStep k (uf.step a) :=
  Function.iterate_succ_apply _ _ _

theorem iterStep_succ' (uf : union_find) (k a : Nat) :
    uf.iterStep (k + 1) a = uf.step (uf.iterStep k a) :=
  Function.iterate_succ_apply' _ _ _

theorem iterStep_one (uf : union_find) (a : Nat) : uf.iterStep 1 a = uf.step a := rfl

theorem iterStep_add (uf : union_find) (j k a : Nat) :
    uf.iterStep (j + k) a = uf.iterStep j (uf.iterStep k a) :=
  Function.iterate_add_apply _ _ _ _

theorem isRoot_iterStep {uf : union_find} {r : Nat} (h : uf.isRoot r) (k : Nat) :
    uf.iterStep k r = r := by
  induction k with
  | zero => rfl
  | succ k ih => rw [iterStep_succ', ih]; exact h

theorem iterStep_lt {uf : union_find} {N : Nat}
    (hp : ∀ i < N, uf.step i < N) {a : Nat} (ha : a < N) (k : Nat) :
    uf.iterStep k a < N := by
  induction k with
  | zero => exact ha
  | succ k ih => rw [iterStep_succ']; exact hp _ ih

/-! Facts about the Rooted relation. -/

theorem Rooted.refl {uf : union_find} {r : Nat} (h : uf.isRoot r) : uf.Rooted r r :=
  ⟨⟨0, rfl⟩, h⟩

theorem rooted_unique_aux {uf : union_find} {a r s : Nat} {k m : Nat}
    (hk : uf.iterStep k a = r) (hr : uf.isRoot r)
    (hm : uf.iterStep m a = s) (hkm : k ≤ m) : r = s := by
  have h1 : uf.iterStep m a = uf.iterStep (m - k) (uf.iterStep k a) := by
    rw [← iterStep_add]
    congr 1
    omega
  rw [h1, hk, isRoot_iterStep hr] at hm
  exact hm

theorem Rooted.unique {uf : union_find} {a r s : Nat}
    (hr : uf.Rooted a r) (hs : uf.Rooted a s) : r = s := by
  obtain ⟨⟨k, hk⟩, hkr⟩ := hr
  obtain ⟨⟨m, hm⟩, hms⟩ := hs
  rcases le_total k m with h | h
  · exact rooted_unique_aux hk hkr hm h
  · exact (rooted_unique_aux hm hms hk h).symm

theorem Rooted.of_step {uf : union_find} {a r : Nat} (h : uf.Rooted (uf.step a) r) :
    uf.Rooted a r := by
  obtain ⟨⟨k, hk⟩, hr⟩ := h
  exact ⟨⟨k + 1, by rw [iterStep_succ]; exact hk⟩, hr⟩

theorem Rooted.iterStep {uf : union_find} {a r : Nat} (h : uf.Rooted a r) (j : Nat) :
    uf.Rooted (uf.iterStep j a) r := by
  obtain ⟨⟨k, hk⟩, hr⟩ := h
  refine ⟨?_, hr⟩
  rcases le_total j k with hjk | hjk
  · refine ⟨k - j, ?_⟩
    rw [← iterStep_add, show k - j + j = k by omega]
    exact hk
  · refine ⟨0, ?_⟩
    show uf.iterStep j a = r
    have h1 : uf.iterStep j a = uf.iterStep (j - k) (uf.iterStep k a) := by
      rw [← iterStep_add]
      congr 1
      omega
    rw [h1, hk, isRoot_iterStep hr]

theorem Rooted.eq_self_of_isRoot {uf : union_find} {a r : Nat}
    (ha : uf.isRoot a) (h : uf.Rooted a r) : r = a :=
  Rooted.unique h (Rooted.refl ha)

/-! The walk reaches a root in fewer than (number of elements) steps:
pigeonhole on the minimal root-hitting time. -/

theorem find_min_chain_aux {uf : union_find} {a : Nat}
    (hex : ∃ k, uf.isRoot (uf.iterStep k a))
    {i j : Nat} (hij : i < j) (hj : j ≤ Nat.find hex)
    (heq : uf.iterStep i a = uf.iterStep j a) : False := by
  have hk0 : uf.isRoot (uf.iterStep (Nat.find hex) a) := Nat.find_spec hex
  have h1 : uf.iterStep (Nat.find hex) a = uf.iterStep (Nat.find hex - j + i) a := by
    have e1 : uf.iterStep (Nat.find hex) a
        = uf.iterStep (Nat.find hex - j) (uf.iterStep j a) := by
      rw [← iterStep_add]
      congr 1
      omega
    rw [e1, ← heq, ← iterStep_add]
  have h2 : uf.isRoot (uf.iterStep (Nat.find hex - j + i) a) := h1 ▸ hk0
  exact Nat.find_min hex (show Nat.find hex - j + i < Nat.find hex by omega) h2

theorem exists_root_lt {uf : union_find}
    (hp : ∀ i < uf.repr.length, uf.step i < uf.repr.length)
    {a : Nat} (ha : a < uf.repr.length)
    (hex : ∃ k, uf.isRoot (uf.iterStep k a)) :
    ∃ k, k < uf.repr.length ∧ uf.isRoot (uf.iterStep k a) := by
  refine ⟨Nat.find hex, ?_, Nat.find_spec hex⟩
  by_contra hge
  push_neg at hge
  have hinj : Function.Injective
      (fun j : Fin (Nat.find hex + 1) =>
        (⟨uf.iterStep j a, iterStep_lt hp ha j⟩ : Fin uf.repr.length)) := by
    intro i j hij
    simp only [Fin.mk.injEq] at hij
    by_contra hne
    have hne' : i.val ≠ j.val := fun h => hne (Fin.ext h)
    rcases Nat.lt_or_ge i.val j.val with hlt | hge2
    · exact find_min_chain_aux hex hlt (by omega) hij
    · exact find_min_chain_aux hex (by omega) (by omega) hij.symm
  have hcard := Fintype.card_le_of_injective _ hinj
  simp only [Fintype.card_fin] at hcard
  omega

theorem rootOf_rooted {uf : union_find}
    (hp : ∀ i < uf.repr.length, uf.step i < uf.repr.length)
    {a : Nat} (ha : a < uf.repr.length)
    (hex : ∃ k, uf.isRoot (uf.iterStep k a)) :
    uf.Rooted a (uf.rootOf a) := by
  obtain ⟨k, hk, hroot⟩ := exists_root_lt hp ha hex
  refine ⟨⟨uf.repr.length, rfl⟩, ?_⟩
  have h1 : uf.iterStep uf.repr.length a = uf.iterStep k a := by
    have h2 : uf.iterStep uf.repr.length a
        = uf.iterStep (uf.repr.length - k) (uf.iterStep k a) := by
      rw [← iterStep_add]
      congr 1
      omega
    rw [h2, isRoot_iterStep hroot]
  show uf.isRoot (uf.iterStep uf.repr.length a)
  rw [h1]
  exact hroot

theorem rootOf_eq {uf : union_find}
    (hp : ∀ i < uf.repr.length, uf.step i < uf.repr.length)
    {a : Nat} (ha : a < uf.repr.length)
    (hex : ∃ k, uf.isRoot (uf.iterStep k a))
    {r : Nat} (h : uf.Rooted a r) : uf.rootOf a = r :=
  Rooted.unique (rootOf_rooted hp ha hex) h

theorem rootOf_eq_self {uf : union_find} {r : Nat} (h : uf.isRoot r) :
    uf.rootOf r = r :=
  isRoot_iterStep h _

/-! List update lemmas used for the repr/size/info writes. -/

theorem list_getD_set_self {α : Type} {l : List α} {p : Nat} (hp : p < l.length)
    (t d : α) : (l.set p t).getD p d = t := by
  simp [List.getD_eq_getElem?_getD, List.getElem?_set_self hp]

theorem list_getD_set_ne {α : Type} {l : List α} {p b : Nat} (h : p ≠ b)
    (t d : α) : (l.set p t).getD b d = l.getD b d := by
  simp [List.getD_eq_getElem?_getD, List.getElem?_set_ne h]

theorem step_set {uf : union_find} {p t : Nat} (hp : p < uf.repr.length) (b : Nat) :
    step { uf with repr := uf.repr.set p t } b = if b = p then t else uf.step b := by
  show (uf.repr.set p t).getD b b = _
  by_cases hb : b = p
  · rw [if_pos hb, hb]
    exact list_getD_set_self hp t p
  · rw [if_neg hb]
    exact list_getD_set_ne (fun h => hb h.symm) t b

theorem length_set_repr (uf : union_find) (p t : Nat) :
    ({ uf with repr := uf.repr.set p t } : union_find).repr.length = uf.repr.length := by
  simp

/-! Nodes visited by a find: reachable from the argument, not yet the root. -/

/-- b is visited strictly before the representative on the walk from a:
reachable from a by the parent walk and not itself a root. -/
def PathNode (uf : union_find) (a b : Nat) : Prop :=
  (∃ j, uf.iterStep j a = b) ∧ ¬ uf.isRoot b

theorem pathNode_self {uf : union_find} {a : Nat} (h : ¬ uf.isRoot a) :
    uf.PathNode a a :=
  ⟨⟨0, rfl⟩, h⟩

theorem pathNode_root {uf : union_find} {a b : Nat} (h : uf.isRoot a) :
    ¬ uf.PathNode a b := by
  rintro ⟨⟨j, hj⟩, hb⟩
  rw [isRoot_iterStep h] at hj
  exact hb (hj ▸ h)

theorem pathNode_succ {uf : union_find} {a b : Nat} (ha : ¬ uf.isRoot a) :
    uf.PathNode a b ↔ b = a ∨ uf.PathNode (uf.step a) b := by
  constructor
  · rintro ⟨⟨j, hj⟩, hb⟩
    cases j with
    | zero => exact Or.inl hj.symm
    | succ j =>
      refine Or.inr ⟨⟨j, ?_⟩, hb⟩
      rw [← iterStep_succ]
      exact hj
  · rintro (rfl | ⟨⟨j, hj⟩, hb⟩)
    · exact ⟨⟨0, rfl⟩, ha⟩
    · refine ⟨⟨j + 1, ?_⟩, hb⟩
      rw [iterStep_succ]
      exact hj

theorem pathNode_rooted {uf : union_find} {a b r : Nat} (h : uf.Rooted a r)
    (hb : uf.PathNode a b) : uf.Rooted b r := by
  obtain ⟨⟨j, hj⟩, _⟩ := hb
  exact hj ▸ Rooted.iterStep h j

/-! Re-pointing one entry of repr: how it acts on the Rooted relation.
Two cases are needed: path compression (an entry is re-pointed to its own
representative, every Rooted fact survives) and the merge link (a root is
re-pointed to another root, components get renamed accordingly). -/

theorem rooted_set_root {uf : union_find} {p r : Nat} (hp : p < uf.repr.length)
    (hpr : uf.Rooted p r) {b s : Nat} (hbs : uf.Rooted b s) :
    Rooted { uf with repr := uf.repr.set p r } b s := by
  obtain ⟨⟨k, hk⟩, hs⟩ := hbs
  induction k using Nat.strong_induction_on generalizing b with
  | _ k ih =>
  by_cases hb : uf.isRoot b
  · have hsb : s = b := Rooted.eq_self_of_isRoot hb ⟨⟨k, hk⟩, hs⟩
    rw [hsb]
    refine Rooted.refl ?_
    show step { uf with repr := uf.repr.set p r } b = b
    rw [step_set hp]
    by_cases hbp : b = p
    · rw [if_pos hbp]
      have hr : r = p := Rooted.eq_self_of_isRoot (by rw [← hbp]; exact hb) hpr
      rw [hr, hbp]
    · rw [if_neg hbp]
      exact hb
  · cases k with
    | zero =>
      have hbseq : b = s := hk
      rw [hbseq] at hb
      exact absurd hs hb
    | succ k =>
      have hk' : uf.iterStep k (uf.step b) = s := by
        rw [← iterStep_succ]
        exact hk
      have ihb := ih k (Nat.lt_succ_self k) hk'
      by_cases hbp : b = p
      · have hpr' : uf.Rooted b r := by rw [hbp]; exact hpr
        have hsr : s = r := Rooted.unique ⟨⟨k + 1, hk⟩, hs⟩ hpr'
        refine ⟨⟨1, ?_⟩, ?_⟩
        · show step { uf with repr := uf.repr.set p r } b = s
          rw [step_set hp, if_pos hbp, hsr]
        · show step { uf with repr := uf.repr.set p r } s = s
          rw [step_set hp, hsr]
          by_cases hrp : r = p
          · rw [if_pos hrp]
          · rw [if_neg hrp]
            exact hpr.2
      · have hstep : step { uf with repr := uf.repr.set p r } b = uf.step b := by
          rw [step_set hp, if_neg hbp]
        exact Rooted.of_step (hstep.symm ▸ ihb)

theorem rooted_set_link {uf : union_find} {p g : Nat} (hp : p < uf.repr.length)
    (hrootp : uf.isRoot p) (hrootg : uf.isRoot g) (hne : p ≠ g)
    {b s : Nat} (hbs : uf.Rooted b s) :
    Rooted { uf with repr := uf.repr.set p g } b (if s = p then g else s) := by
  obtain ⟨⟨k, hk⟩, hs⟩ := hbs
  induction k using Nat.strong_induction_on generalizing b with
  | _ k ih =>
  by_cases hb : uf.isRoot b
  · have hsb : s = b := Rooted.eq_self_of_isRoot hb ⟨⟨k, hk⟩, hs⟩
    by_cases hbp : b = p
    · rw [if_pos (by rw [hsb, hbp])]
      refine ⟨⟨1, ?_⟩, ?_⟩
      · show step { uf with repr := uf.repr.set p g } b = g
        rw [step_set hp, if_pos hbp]
      · show step { uf with repr := uf.repr.set p g } g = g
        rw [step_set hp, if_neg (fun h => hne h.symm)]
        exact hrootg
    · rw [if_neg (by rw [hsb]; exact hbp), hsb]
      refine Rooted.refl ?_
      show step { uf with repr := uf.repr.set p g } b = b
      rw [step_set hp, if_neg hbp]
      exact hb
  · cases k with
    | zero =>
      have hbseq : b = s := hk
      rw [hbseq] at hb
      exact absurd hs hb
    | succ k =>
      have hbp : b ≠ p := fun h => hb (by rw [h]; exact hrootp)
      have hk' : uf.iterStep k (uf.step b) = s := by
        rw [← iterStep_succ]
        exact hk
      have ihb := ih k (Nat.lt_succ_self k) hk'
      have hstep : step { uf with repr := uf.repr.set p g } b = uf.step b := by
        rw [step_set hp, if_neg hbp]
      exact Rooted.of_step (hstep.symm ▸ ihb)

/-! The well-formedness invariant and the specification of find. -/

/-- Invariant holding after construction and after every completed
operation: the three vectors have equal length n, parents stay in range,
every walk reaches a fixed point, the stored size of a representative is
its component's cardinality (0 at absorbed indices), and the stored
aggregate of a representative is the (min, max) of its component. -/
structure WF (uf : union_find) : Prop where
  len_size : uf.component_size.length = uf.repr.length
  len_info : uf.additionalInfo.length = uf.repr.length
  parent_lt : ∀ i < uf.repr.length, uf.step i < uf.repr.length
  reaches : ∀ a < uf.repr.length, ∃ k, uf.isRoot (uf.iterStep k a)
  size_root : ∀ r < uf.repr.length, uf.isRoot r → uf.sizeAt r = (uf.comp r).card
  size_nonroot : ∀ i < uf.repr.length, ¬ uf.isRoot i → uf.sizeAt i = 0
  info_min : ∀ r < uf.repr.length, uf.isRoot r →
    (uf.infoAt r).1 ∈ uf.comp r ∧ ∀ i ∈ uf.comp r, (uf.infoAt r).1 ≤ i
  info_max : ∀ r < uf.repr.length, uf.isRoot r →
    (uf.infoAt r).2 ∈ uf.comp r ∧ ∀ i ∈ uf.comp r, i ≤ (uf.infoAt r).2

theorem WF.rooted_rootOf {uf : union_find} (h : WF uf) {a : Nat}
    (ha : a < uf.repr.length) : uf.Rooted a (uf.rootOf a) :=
  rootOf_rooted h.parent_lt ha (h.reaches a ha)

theorem WF.rootOf_eq_of_rooted {uf : union_find} (h : WF uf) {a r : Nat}
    (ha : a < uf.repr.length) (hr : uf.Rooted a r) : uf.rootOf a = r :=
  Rooted.unique (h.rooted_rootOf ha) hr

theorem WF.rootOf_lt {uf : union_find} (h : WF uf) {a : Nat}
    (ha : a < uf.repr.length) : uf.rootOf a < uf.repr.length :=
  iterStep_lt h.parent_lt ha _

theorem WF.isRoot_rootOf {uf : union_find} (h : WF uf) {a : Nat}
    (ha : a < uf.repr.length) : uf.isRoot (uf.rootOf a) :=
  (h.rooted_rootOf ha).2

theorem findAux_zero (uf : union_find) (a : Nat) : findAux 0 uf a = (a, uf) := rfl

theorem findAux_succ (fuel : Nat) (uf : union_find) (a : Nat) :
    findAux (fuel + 1) uf a =
      if uf.step a = a then (a, uf)
      else
        ((findAux fuel uf (uf.step a)).1,
         { (findAux fuel uf (uf.step a)).2 with
            repr := (findAux fuel uf (uf.step a)).2.repr.set a
              (findAux fuel uf (uf.step a)).1 }) := rfl

/-- Full specification of findAux with sufficient fuel: the returned value
is the representative of a; the size and aggregate vectors are untouched;
the repr vector keeps its length, every visited node now points directly at
the representative and no other entry changed; and every Rooted fact
survives the compression. -/
theorem findAux_spec {uf : union_find} {fuel a k : Nat}
    (hp : ∀ i < uf.repr.length, uf.step i < uf.repr.length)
    (ha : a < uf.repr.length) (hk : k ≤ fuel)
    (hroot : uf.isRoot (uf.iterStep k a)) :
    uf.Rooted a (findAux fuel uf a).1
    ∧ (findAux fuel uf a).2.component_size = uf.component_size
    ∧ (findAux fuel uf a).2.additionalInfo = uf.additionalInfo
    ∧ (findAux fuel uf a).2.repr.length = uf.repr.length
    ∧ (∀ b, uf.PathNode a b → (findAux fuel uf a).2.step b = (findAux fuel uf a).1)
    ∧ (∀ b, ¬ uf.PathNode a b → (findAux fuel uf a).2.step b = uf.step b)
    ∧ (∀ b s, uf.Rooted b s → (findAux fuel uf a).2.Rooted b s) := by
  induction fuel generalizing uf a k with
  | zero =>
    have hk0 : k = 0 := Nat.le_zero.mp hk
    rw [hk0] at hroot
    have hra : uf.isRoot a := hroot
    refine ⟨Rooted.refl hra, rfl, rfl, rfl, ?_, fun b _ => rfl, fun b s hh => hh⟩
    intro b hb
    exact absurd hb (pathNode_root hra)
  | succ fuel ih =>
    by_cases hra : uf.isRoot a
    · rw [findAux_succ, if_pos (show uf.step a = a from hra)]
      refine ⟨Rooted.refl hra, rfl, rfl, rfl, ?_, fun b _ => rfl, fun b s hh => hh⟩
      intro b hb
      exact absurd hb (pathNode_root hra)
    · have hk1 : 1 ≤ k := by
        rcases Nat.eq_zero_or_pos k with h0 | h1
        · rw [h0] at hroot
          exact absurd hroot hra
        · exact h1
      have hkshift : uf.iterStep (k - 1) (uf.step a) = uf.iterStep k a := by
        rw [← iterStep_succ]
        congr 1
        omega
      have hroot' : uf.isRoot (uf.iterStep (k - 1) (uf.step a)) := by
        rw [hkshift]
        exact hroot
      have hsa : uf.step a < uf.repr.length := hp a ha
      obtain ⟨ih1, ih2, ih3, ih4, ih5, ih6, ih7⟩ :=
        ih hp hsa (by omega) hroot'
      rw [findAux_succ, if_neg (show ¬ uf.step a = a from hra)]
      have ham : a < (findAux fuel uf (uf.step a)).2.repr.length := by
        rw [ih4]
        exact ha
      have hstep' : ∀ b,
          step { (findAux fuel uf (uf.step a)).2 with
              repr := (findAux fuel uf (uf.step a)).2.repr.set a
                (findAux fuel uf (uf.step a)).1 } b
            = if b = a then (findAux fuel uf (uf.step a)).1
              else (findAux fuel uf (uf.step a)).2.step b :=
        step_set ham
      refine ⟨Rooted.of_step ih1, ih2, ih3, ?_, ?_, ?_, ?_⟩
      · show ((findAux fuel uf (uf.step a)).2.repr.set a
            (findAux fuel uf (uf.step a)).1).length = uf.repr.length
        rw [List.length_set]
        exact ih4
      · intro b hb
        rw [hstep' b]
        by_cases hba : b = a
        · rw [if_pos hba]
        · rw [if_neg hba]
          rcases (pathNode_succ hra).mp hb with h | h
          · exact absurd h hba
          · exact ih5 b h
      · intro b hb
        have hba : b ≠ a := by
          intro h
          rw [h] at hb
          exact hb (pathNode_self hra)
        have hb' : ¬ uf.PathNode (uf.step a) b := by
          intro h
          exact hb ((pathNode_succ hra).mpr (Or.inr h))
        rw [hstep' b, if_neg hba]
        exact ih6 b hb'
      · intro b s hbs
        exact rooted_set_root ham (ih7 a (findAux fuel uf (uf.step a)).1
          (Rooted.of_step ih1)) (ih7 b s hbs)

theorem Rooted.exists_isRoot {uf : union_find} {a r : Nat} (h : uf.Rooted a r) :
    ∃ k, uf.isRoot (uf.iterStep k a) := by
  obtain ⟨⟨k, hk⟩, hr⟩ := h
  refine ⟨k, ?_⟩
  rw [hk]
  exact hr

theorem Rooted.lt {uf : union_find} {N a r : Nat}
    (hp : ∀ i < N, uf.step i < N) (ha : a < N) (h : uf.Rooted a r) : r < N := by
  obtain ⟨⟨k, hk⟩, _⟩ := h
  rw [← hk]
  exact iterStep_lt hp ha k

theorem step_oob {uf : union_find} {b : Nat} (h : uf.repr.length ≤ b) :
    uf.step b = b := by
  show uf.repr.getD b b = b
  rw [List.getD_eq_getElem?_getD, List.getElem?_eq_none h]
  rfl

theorem rootOf_oob {uf : union_find} {b : Nat} (h : uf.repr.length ≤ b) :
    uf.rootOf b = b :=
  isRoot_iterStep (step_oob h) _

/-- find with fuel fixed to the element count meets the full findAux
specification: on a well-formed state the walk hits a root in fewer than
(element count) steps. -/
theorem find_spec {uf : union_find} (h : WF uf) {a : Nat}
    (ha : a < uf.repr.length) :
    uf.Rooted a (uf.find a).1
    ∧ (uf.find a).2.component_size = uf.component_size
    ∧ (uf.find a).2.additionalInfo = uf.additionalInfo
    ∧ (uf.find a).2.repr.length = uf.repr.length
    ∧ (∀ b, uf.PathNode a b → (uf.find a).2.step b = (uf.find a).1)
    ∧ (∀ b, ¬ uf.PathNode a b → (uf.find a).2.step b = uf.step b)
    ∧ (∀ b s, uf.Rooted b s → (uf.find a).2.Rooted b s) := by
  obtain ⟨k, hk, hroot⟩ := exists_root_lt h.parent_lt ha (h.reaches a ha)
  exact findAux_spec h.parent_lt ha (Nat.le_of_lt hk) hroot

theorem find_fst {uf : union_find} (h : WF uf) {a : Nat}
    (ha : a < uf.repr.length) : (uf.find a).1 = uf.rootOf a :=
  (h.rootOf_eq_of_rooted ha (find_spec h ha).1).symm

/-- If a state change keeps the length, keeps parents in range and
preserves every Rooted fact, it preserves the executable representative of
every index. -/
theorem rootOf_eq_of_preserved {uf uf' : union_find}
    (hlen : uf'.repr.length = uf.repr.length)
    (hp' : ∀ i < uf'.repr.length, uf'.step i < uf'.repr.length)
    (hpres : ∀ b s, uf.Rooted b s → uf'.Rooted b s)
    (h : WF uf) : ∀ b, uf'.rootOf b = uf.rootOf b := by
  intro b
  by_cases hb : b < uf.repr.length
  · have h2 : uf'.Rooted b (uf.rootOf b) := hpres _ _ (h.rooted_rootOf hb)
    exact rootOf_eq hp' (by rw [hlen]; exact hb) h2.exists_isRoot h2
  · push_neg at hb
    rw [rootOf_oob (by rw [hlen]; exact hb), rootOf_oob hb]

theorem find_parent_lt {uf : union_find} (h : WF uf) {a : Nat}
    (ha : a < uf.repr.length) :
    ∀ i < (uf.find a).2.repr.length, (uf.find a).2.step i < (uf.find a).2.repr.length := by
  obtain ⟨h1, _, _, h4, h5, h6, _⟩ := find_spec h ha
  intro i hi
  rw [h4] at hi ⊢
  by_cases hpath : uf.PathNode a i
  · rw [h5 i hpath]
    exact Rooted.lt h.parent_lt ha h1
  · rw [h6 i hpath]
    exact h.parent_lt i hi

theorem find_rootOf {uf : union_find} (h : WF uf) {a : Nat}
    (ha : a < uf.repr.length) : ∀ b, (uf.find a).2.rootOf b = uf.rootOf b :=
  rootOf_eq_of_preserved (find_spec h ha).2.2.2.1 (find_parent_lt h ha)
    (find_spec h ha).2.2.2.2.2.2 h

theorem find_isRoot_iff {uf : union_find} (h : WF uf) {a : Nat}
    (ha : a < uf.repr.length) (b : Nat) :
    (uf.find a).2.isRoot b ↔ uf.isRoot b := by
  obtain ⟨h1, _, _, _, h5, h6, _⟩ := find_spec h ha
  constructor
  · intro hb
    by_contra hnb
    by_cases hpath : uf.PathNode a b
    · have hstep : (uf.find a).2.step b = (uf.find a).1 := h5 b hpath
      have hbr : b = (uf.find a).1 := by
        rw [← hstep]
        exact hb.symm
      exact hnb (by rw [hbr]; exact h1.2)
    · have hstep : (uf.find a).2.step b = uf.step b := h6 b hpath
      refine hnb ?_
      show uf.step b = b
      rw [← hstep]
      exact hb
  · intro hb
    have hpath : ¬ uf.PathNode a b := fun hc => hc.2 hb
    show (uf.find a).2.step b = b
    rw [h6 b hpath]
    exact hb

theorem find_comp {uf : union_find} (h : WF uf) {a : Nat}
    (ha : a < uf.repr.length) (r : Nat) : (uf.find a).2.comp r = uf.comp r := by
  unfold comp
  rw [(find_spec h ha).2.2.2.1]
  apply Finset.filter_congr
  intro i _
  rw [find_rootOf h ha i]

theorem WF_find {uf : union_find} (h : WF uf) {a : Nat}
    (ha : a < uf.repr.length) : WF (uf.find a).2 := by
  obtain ⟨h1, h2, h3, h4, h5, h6, h7⟩ := find_spec h ha
  have hsize : ∀ i, (uf.find a).2.sizeAt i = uf.sizeAt i := by
    intro i
    unfold sizeAt
    rw [h2]
  have hinfo : ∀ i, (uf.find a).2.infoAt i = uf.infoAt i := by
    intro i
    unfold infoAt
    rw [h3]
  refine ⟨?_, ?_, find_parent_lt h ha, ?_, ?_, ?_, ?_, ?_⟩
  · rw [h2, h4, h.len_size]
  · rw [h3, h4, h.len_info]
  · intro b hb
    rw [h4] at hb
    exact ((h7 b (uf.rootOf b) (h.rooted_rootOf hb))).exists_isRoot
  · intro r hr hroot
    rw [h4] at hr
    rw [hsize, find_comp h ha, h.size_root r hr ((find_isRoot_iff h ha r).mp hroot)]
  · intro i hi hroot
    rw [h4] at hi
    exact hsize i ▸ h.size_nonroot i hi (fun hc => hroot ((find_isRoot_iff h ha i).mpr hc))
  · intro r hr hroot
    rw [h4] at hr
    rw [hinfo, find_comp h ha]
    exact h.info_min r hr ((find_isRoot_iff h ha r).mp hroot)
  · intro r hr hroot
    rw [h4] at hr
    rw [hinfo, find_comp h ha]
    exact h.info_max r hr ((find_isRoot_iff h ha r).mp hroot)

/-! The constructor establishes the invariant. -/

theorem init_repr_length (m : Int) : (init m).repr.length = m.toNat :=
  List.length_range m.toNat

theorem init_step (m : Int) (i : Nat) : (init m).step i = i := by
  show (List.range m.toNat).getD i i = i
  by_cases hi : i < m.toNat
  · rw [List.getD_eq_getElem?_getD, List.getElem?_range hi]
    rfl
  · push_neg at hi
    rw [List.getD_eq_getElem?_getD,
      List.getElem?_eq_none (by rw [List.length_range]; exact hi)]
    rfl

theorem init_isRoot (m : Int) (i : Nat) : (init m).isRoot i := init_step m i

theorem init_rootOf (m : Int) (i : Nat) : (init m).rootOf i = i :=
  rootOf_eq_self (init_isRoot m i)

theorem init_comp {m : Int} {r : Nat} (hr : r < m.toNat) : (init m).comp r = {r} := by
  unfold comp
  rw [init_repr_length]
  ext i
  simp only [Finset.mem_filter, Finset.mem_range, Finset.mem_singleton, init_rootOf]
  constructor
  · rintro ⟨_, hir⟩
    exact hir
  · rintro rfl
    exact ⟨hr, rfl⟩

theorem init_sizeAt {m : Int} {i : Nat} (hi : i < m.toNat) : (init m).sizeAt i = 1 := by
  show (List.replicate m.toNat 1).getD i 0 = 1
  rw [List.getD_eq_getElem?_getD, List.getElem?_replicate, if_pos hi]
  rfl

theorem init_infoAt {m : Int} {i : Nat} (hi : i < m.toNat) :
    (init m).infoAt i = (i, i) := by
  show ((List.range m.toNat).map fun j => (j, j)).getD i (0, 0) = (i, i)
  rw [List.getD_eq_getElem?_getD, List.getElem?_map, List.getElem?_range hi]
  rfl

theorem WF_init (m : Int) : WF (init m) := by
  refine ⟨?_, ?_, ?_, ?_, ?_, ?_, ?_, ?_⟩
  · show (List.replicate m.toNat 1).length = _
    rw [List.length_replicate, init_repr_length]
  · show ((List.range m.toNat).map fun j => (j, j)).length = _
    rw [List.length_map, List.length_range, init_repr_length]
  · intro i hi
    rw [init_step]
    exact hi
  · intro a _
    exact ⟨0, init_isRoot m a⟩
  · intro r hr _
    rw [init_repr_length] at hr
    rw [init_sizeAt hr, init_comp hr, Finset.card_singleton]
  · intro i _ hroot
    exact absurd (init_isRoot m i) hroot
  · intro r hr _
    rw [init_repr_length] at hr
    rw [init_infoAt hr, init_comp hr]
    exact ⟨Finset.mem_singleton_self r, fun i hi => le_of_eq (Finset.mem_singleton.mp hi).symm⟩
  · intro r hr _
    rw [init_repr_length] at hr
    rw [init_infoAt hr, init_comp hr]
    exact ⟨Finset.mem_singleton_self r, fun i hi => le_of_eq (Finset.mem_singleton.mp hi)⟩

/-! The merge writes, analysed with the absorbing representative G and the
absorbed representative P already chosen (G absorbs P). -/

/-- The mergeLink writes after the size-heuristic choice: G absorbs P. -/
def mergeCore (uf2 : union_find) (G P : Nat) : union_find where
  component_size := (uf2.component_size.set G
    (uf2.component_size.getD G 0 + uf2.component_size.getD P 0)).set P 0
  repr := uf2.repr.set P G
  additionalInfo := uf2.additionalInfo.set G
    (min (uf2.additionalInfo.getD G (0, 0)).1 (uf2.additionalInfo.getD P (0, 0)).1,
     max (uf2.additionalInfo.getD G (0, 0)).2 (uf2.additionalInfo.getD P (0, 0)).2)

theorem mergeLink_eq (uf2 : union_find) (g1 p1 : Nat) :
    mergeLink uf2 g1 p1 =
      if uf2.component_size.getD p1 0 > uf2.component_size.getD g1 0
      then mergeCore uf2 p1 g1
      else mergeCore uf2 g1 p1 := by
  by_cases hc : uf2.component_size.getD p1 0 > uf2.component_size.getD g1 0
  · rw [if_pos hc]
    unfold mergeLink
    rw [if_pos hc]
    rfl
  · rw [if_neg hc]
    unfold mergeLink
    rw [if_neg hc]
    rfl

theorem step_mergeCore {uf2 : union_find} {G P : Nat}
    (hPn : P < uf2.repr.length) (b : Nat) :
    (mergeCore uf2 G P).step b = if b = P then G else uf2.step b := by
  show (uf2.repr.set P G).getD b b = _
  by_cases hb : b = P
  · rw [if_pos hb, hb]
    exact list_getD_set_self hPn G P
  · rw [if_neg hb]
    exact list_getD_set_ne (fun hc => hb hc.symm) G b

theorem mergeCore_repr_length (uf2 : union_find) (G P : Nat) :
    (mergeCore uf2 G P).repr.length = uf2.repr.length := by
  show (uf2.repr.set P G).length = _
  rw [List.length_set]

theorem mergeCore_rooted {uf2 : union_find} {G P : Nat}
    (hPn : P < uf2.repr.length) (hG : uf2.isRoot G) (hP : uf2.isRoot P)
    (hPG : P ≠ G) {b s : Nat} (hbs : uf2.Rooted b s) :
    (mergeCore uf2 G P).Rooted b (if s = P then G else s) :=
  rooted_set_link hPn hP hG hPG hbs

theorem mergeCore_parent_lt {uf2 : union_find} (h2 : WF uf2) {G P : Nat}
    (hGn : G < uf2.repr.length) (hPn : P < uf2.repr.length) :
    ∀ i < (mergeCore uf2 G P).repr.length,
      (mergeCore uf2 G P).step i < (mergeCore uf2 G P).repr.length := by
  intro i hi
  rw [mergeCore_repr_length] at hi ⊢
  rw [step_mergeCore hPn]
  by_cases hip : i = P
  · rw [if_pos hip]
    exact hGn
  · rw [if_neg hip]
    exact h2.parent_lt i hi

theorem mergeCore_rootOf {uf2 : union_find} (h2 : WF uf2) {G P : Nat}
    (hG : uf2.isRoot G) (hP : uf2.isRoot P)
    (hGn : G < uf2.repr.length) (hPn : P < uf2.repr.length) (hPG : P ≠ G) :
    ∀ b, (mergeCore uf2 G P).rootOf b
      = if uf2.rootOf b = P then G else uf2.rootOf b := by
  intro b
  by_cases hb : b < uf2.repr.length
  · have h1 := mergeCore_rooted hPn hG hP hPG (h2.rooted_rootOf hb)
    exact rootOf_eq (mergeCore_parent_lt h2 hGn hPn)
      (by rw [mergeCore_repr_length]; exact hb) h1.exists_isRoot h1
  · push_neg at hb
    have hob : uf2.rootOf b = b := rootOf_oob hb
    rw [hob, rootOf_oob (by rw [mergeCore_repr_length]; exact hb),
      if_neg (by omega : ¬ b = P)]

theorem mergeCore_isRoot {uf2 : union_find} {G P : Nat}
    (hPn : P < uf2.repr.length) (hGP : G ≠ P) (b : Nat) :
    ((mergeCore uf2 G P).isRoot b ↔ (uf2.isRoot b ∧ b ≠ P)) := by
  show (mergeCore uf2 G P).step b = b ↔ _
  rw [step_mergeCore hPn]
  by_cases hbp : b = P
  · rw [if_pos hbp]
    constructor
    · intro hGb
      exact absurd (hGb.trans hbp) hGP
    · rintro ⟨_, hbP⟩
      exact absurd hbp hbP
  · rw [if_neg hbp]
    exact ⟨fun hh => ⟨hh, hbp⟩, fun hh => hh.1⟩

theorem comp_disjoint {uf : union_find} {r s : Nat} (h : r ≠ s) :
    Disjoint (uf.comp r) (uf.comp s) := by
  rw [Finset.disjoint_left]
  intro i hir his
  unfold comp at hir his
  rw [Finset.mem_filter] at hir his
  exact h (hir.2.symm.trans his.2)

theorem mergeCore_comp_absorbing {uf2 : union_find} (h2 : WF uf2) {G P : Nat}
    (hG : uf2.isRoot G) (hP : uf2.isRoot P)
    (hGn : G < uf2.repr.length) (hPn : P < uf2.repr.length) (hPG : P ≠ G) :
    (mergeCore uf2 G P).comp G = uf2.comp G ∪ uf2.comp P := by
  unfold comp
  rw [mergeCore_repr_length]
  ext i
  simp only [Finset.mem_filter, Finset.mem_range, Finset.mem_union]
  rw [mergeCore_rootOf h2 hG hP hGn hPn hPG i]
  constructor
  · rintro ⟨hi, hroot⟩
    by_cases hc : uf2.rootOf i = P
    · exact Or.inr ⟨hi, hc⟩
    · rw [if_neg hc] at hroot
      exact Or.inl ⟨hi, hroot⟩
  · rintro (⟨hi, hr⟩ | ⟨hi, hr⟩)
    · refine ⟨hi, ?_⟩
      rw [hr, if_neg (fun hc => hPG hc.symm)]
    · refine ⟨hi, ?_⟩
      rw [hr, if_pos rfl]

theorem mergeCore_comp_other {uf2 : union_find} (h2 : WF uf2) {G P : Nat}
    (hG : uf2.isRoot G) (hP : uf2.isRoot P)
    (hGn : G < uf2.repr.length) (hPn : P < uf2.repr.length) (hPG : P ≠ G)
    {r : Nat} (hrG : r ≠ G) (hrP : r ≠ P) :
    (mergeCore uf2 G P).comp r = uf2.comp r := by
  unfold comp
  rw [mergeCore_repr_length]
  apply Finset.filter_congr
  intro i _
  rw [mergeCore_rootOf h2 hG hP hGn hPn hPG i]
  by_cases hc : uf2.rootOf i = P
  · rw [if_pos hc, hc]
    exact ⟨fun hh => absurd hh.symm hrG, fun hh => absurd hh.symm hrP⟩
  · rw [if_neg hc]

theorem mergeCore_sizeAt {uf2 : union_find} {G P : Nat} (hGP : G ≠ P)
    (hGs : G < uf2.component_size.length) :
    (mergeCore uf2 G P).sizeAt G = uf2.sizeAt G + uf2.sizeAt P
    ∧ (mergeCore uf2 G P).sizeAt P = 0
    ∧ ∀ i, i ≠ G → i ≠ P → (mergeCore uf2 G P).sizeAt i = uf2.sizeAt i := by
  refine ⟨?_, ?_, ?_⟩
  · show ((uf2.component_size.set G _).set P 0).getD G 0 = _
    rw [list_getD_set_ne (fun hc => hGP hc.symm)]
    exact list_getD_set_self hGs _ _
  · show ((uf2.component_size.set G _).set P 0).getD P 0 = 0
    by_cases hPs : P < uf2.component_size.length
    · exact list_getD_set_self (by rw [List.length_set]; exact hPs) 0 0
    · push_neg at hPs
      rw [List.getD_eq_getElem?_getD,
        List.getElem?_eq_none (by rw [List.length_set, List.length_set]; exact hPs)]
      rfl
  · intro i hiG hiP
    show ((uf2.component_size.set G _).set P 0).getD i 0 = _
    rw [list_getD_set_ne (fun hc => hiP hc.symm), list_getD_set_ne (fun hc => hiG hc.symm)]
    rfl

theorem mergeCore_infoAt {uf2 : union_find} {G P : Nat}
    (hGi : G < uf2.additionalInfo.length) :
    (mergeCore uf2 G P).infoAt G
      = (min (uf2.infoAt G).1 (uf2.infoAt P).1, max (uf2.infoAt G).2 (uf2.infoAt P).2)
    ∧ ∀ i, i ≠ G → (mergeCore uf2 G P).infoAt i = uf2.infoAt i := by
  constructor
  · show (uf2.additionalInfo.set G _).getD G (0, 0) = _
    exact list_getD_set_self hGi _ _
  · intro i hiG
    show (uf2.additionalInfo.set G _).getD i (0, 0) = _
    exact list_getD_set_ne (fun hc => hiG hc.symm) _ _

theorem mem_comp_self {uf : union_find} {r : Nat} (hr : r < uf.repr.length)
    (hroot : uf.isRoot r) : r ∈ uf.comp r := by
  unfold comp
  rw [Finset.mem_filter, Finset.mem_range]
  exact ⟨hr, rootOf_eq_self hroot⟩

theorem WF_mergeCore {uf2 : union_find} (h2 : WF uf2) {G P : Nat}
    (hG : uf2.isRoot G) (hP : uf2.isRoot P)
    (hGn : G < uf2.repr.length) (hPn : P < uf2.repr.length) (hGP : G ≠ P) :
    WF (mergeCore uf2 G P) := by
  have hPG : P ≠ G := fun hc => hGP hc.symm
  have hGs : G < uf2.component_size.length := by rw [h2.len_size]; exact hGn
  have hGi : G < uf2.additionalInfo.length := by rw [h2.len_info]; exact hGn
  obtain ⟨hsG, hsP, hsO⟩ := mergeCore_sizeAt hGP hGs
  obtain ⟨hinfoG, hinfoO⟩ := @mergeCore_infoAt uf2 G P hGi
  have e1 : ((mergeCore uf2 G P).infoAt G).1
      = min (uf2.infoAt G).1 (uf2.infoAt P).1 := by rw [hinfoG]
  have e2 : ((mergeCore uf2 G P).infoAt G).2
      = max (uf2.infoAt G).2 (uf2.infoAt P).2 := by rw [hinfoG]
  refine ⟨?_, ?_, mergeCore_parent_lt h2 hGn hPn, ?_, ?_, ?_, ?_, ?_⟩
  · show ((uf2.component_size.set G _).set P 0).length = (uf2.repr.set P G).length
    rw [List.length_set, List.length_set, List.length_set]
    exact h2.len_size
  · show (uf2.additionalInfo.set G _).length = (uf2.repr.set P G).length
    rw [List.length_set, List.length_set]
    exact h2.len_info
  · intro b hb
    rw [mergeCore_repr_length] at hb
    exact (mergeCore_rooted hPn hG hP hPG (h2.rooted_rootOf hb)).exists_isRoot
  · intro r hr hroot
    rw [mergeCore_repr_length] at hr
    obtain ⟨hr2, hrP⟩ := (mergeCore_isRoot hPn hGP r).mp hroot
    by_cases hrG : r = G
    · subst hrG
      rw [hsG, h2.size_root r hGn hG, h2.size_root P hPn hP,
        mergeCore_comp_absorbing h2 hG hP hGn hPn hPG,
        Finset.card_union_of_disjoint (comp_disjoint hGP)]
    · rw [hsO r hrG hrP, mergeCore_comp_other h2 hG hP hGn hPn hPG hrG hrP]
      exact h2.size_root r hr hr2
  · intro i hi hroot
    rw [mergeCore_repr_length] at hi
    rw [mergeCore_isRoot hPn hGP] at hroot
    by_cases hiP : i = P
    · rw [hiP]
      exact hsP
    · have hni : ¬ uf2.isRoot i := fun hc => hroot ⟨hc, hiP⟩
      have hiG : i ≠ G := fun hc => hni (by rw [hc]; exact hG)
      rw [hsO i hiG hiP]
      exact h2.size_nonroot i hi hni
  · intro r hr hroot
    rw [mergeCore_repr_length] at hr
    obtain ⟨hr2, hrP⟩ := (mergeCore_isRoot hPn hGP r).mp hroot
    by_cases hrG : r = G
    · subst hrG
      rw [e1, mergeCore_comp_absorbing h2 hG hP hGn hPn hPG]
      constructor
      · rcases min_choice (uf2.infoAt r).1 (uf2.infoAt P).1 with hmin | hmin
        · rw [hmin]
          exact Finset.mem_union_left _ (h2.info_min r hGn hG).1
        · rw [hmin]
          exact Finset.mem_union_right _ (h2.info_min P hPn hP).1
      · intro i hi
        rcases Finset.mem_union.mp hi with hic | hic
        · exact le_trans (min_le_left _ _) ((h2.info_min r hGn hG).2 i hic)
        · exact le_trans (min_le_right _ _) ((h2.info_min P hPn hP).2 i hic)
    · rw [hinfoO r hrG, mergeCore_comp_other h2 hG hP hGn hPn hPG hrG hrP]
      exact h2.info_min r hr hr2
  · intro r hr hroot
    rw [mergeCore_repr_length] at hr
    obtain ⟨hr2, hrP⟩ := (mergeCore_isRoot hPn hGP r).mp hroot
    by_cases hrG : r = G
    · subst hrG
      rw [e2, mergeCore_comp_absorbing h2 hG hP hGn hPn hPG]
      constructor
      · rcases max_choice (uf2.infoAt r).2 (uf2.infoAt P).2 with hmax | hmax
        · rw [hmax]
          exact Finset.mem_union_left _ (h2.info_max r hGn hG).1
        · rw [hmax]
          exact Finset.mem_union_right _ (h2.info_max P hPn hP).1
      · intro i hi
        rcases Finset.mem_union.mp hi with hic | hic
        · exact le_trans ((h2.info_max r hGn hG).2 i hic) (le_max_left _ _)
        · exact le_trans ((h2.info_max P hPn hP).2 i hic) (le_max_right _ _)
    · rw [hinfoO r hrG, mergeCore_comp_other h2 hG hP hGn hPn hPG hrG hrP]
      exact h2.info_max r hr hr2

/-! Transfer lemmas for the state reached inside merge after both finds. -/

theorem hy_after_find {uf : union_find} (h : WF uf) {x y : Nat}
    (hx : x < uf.repr.length) (hy : y < uf.repr.length) :
    y < (uf.find x).2.repr.length := by
  rw [(find_spec h hx).2.2.2.1]
  exact hy

theorem find2_WF {uf : union_find} (h : WF uf) {x y : Nat}
    (hx : x < uf.repr.length) (hy : y < uf.repr.length) :
    WF ((uf.find x).2.find y).2 :=
  WF_find (WF_find h hx) (hy_after_find h hx hy)

theorem find2_len {uf : union_find} (h : WF uf) {x y : Nat}
    (hx : x < uf.repr.length) (hy : y < uf.repr.length) :
    ((uf.find x).2.find y).2.repr.length = uf.repr.length := by
  rw [(find_spec (WF_find h hx) (hy_after_find h hx hy)).2.2.2.1,
    (find_spec h hx).2.2.2.1]

theorem find2_rootOf {uf : union_find} (h : WF uf) {x y : Nat}
    (hx : x < uf.repr.length) (hy : y < uf.repr.length) (b : Nat) :
    ((uf.find x).2.find y).2.rootOf b = uf.rootOf b := by
  rw [find_rootOf (WF_find h hx) (hy_after_find h hx hy) b, find_rootOf h hx b]

theorem find2_isRoot {uf : union_find} (h : WF uf) {x y : Nat}
    (hx : x < uf.repr.length) (hy : y < uf.repr.length) (b : Nat) :
    (((uf.find x).2.find y).2.isRoot b ↔ uf.isRoot b) :=
  (find_isRoot_iff (WF_find h hx) (hy_after_find h hx hy) b).trans
    (find_isRoot_iff h hx b)

theorem find2_sizeAt {uf : union_find} (h : WF uf) {x y : Nat}
    (hx : x < uf.repr.length) (hy : y < uf.repr.length) (i : Nat) :
    ((uf.find x).2.find y).2.sizeAt i = uf.sizeAt i := by
  unfold sizeAt
  rw [(find_spec (WF_find h hx) (hy_after_find h hx hy)).2.1, (find_spec h hx).2.1]

theorem find2_infoAt {uf : union_find} (h : WF uf) {x y : Nat}
    (hx : x < uf.repr.length) (hy : y < uf.repr.length) (i : Nat) :
    ((uf.find x).2.find y).2.infoAt i = uf.infoAt i := by
  unfold infoAt
  rw [(find_spec (WF_find h hx) (hy_after_find h hx hy)).2.2.1,
    (find_spec h hx).2.2.1]

theorem find2_comp {uf : union_find} (h : WF uf) {x y : Nat}
    (hx : x < uf.repr.length) (hy : y < uf.repr.length) (r : Nat) :
    ((uf.find x).2.find y).2.comp r = uf.comp r := by
  rw [find_comp (WF_find h hx) (hy_after_find h hx hy) r, find_comp h hx r]

theorem find2_fst {uf : union_find} (h : WF uf) {x y : Nat}
    (hx : x < uf.repr.length) (hy : y < uf.repr.length) :
    ((uf.find x).2.find y).1 = uf.rootOf y := by
  rw [find_fst (WF_find h hx) (hy_after_find h hx hy), find_rootOf h hx y]

/-- merge with both representatives written out: under the invariant, the
two finds inside merge return the representatives of x and y. -/
theorem merge_eq {uf : union_find} (h : WF uf) {x y : Nat}
    (hx : x < uf.repr.length) (hy : y < uf.repr.length) :
    uf.merge x y =
      if uf.rootOf x = uf.rootOf y
      then ((uf.find x).2.find y).2
      else mergeLink ((uf.find x).2.find y).2 (uf.rootOf x) (uf.rootOf y) := by
  show (if (uf.find x).1 = ((uf.find x).2.find y).1
      then ((uf.find x).2.find y).2
      else mergeLink ((uf.find x).2.find y).2 (uf.find x).1 ((uf.find x).2.find y).1) = _
  rw [find_fst h hx, find2_fst h hx hy]

/-- When the representatives differ, merge performs the mergeCore writes on
the compressed state, the absorbing side chosen by the size heuristic
(strict comparison: on ties the first argument's representative absorbs). -/
theorem merge_eq_mergeCore {uf : union_find} (h : WF uf) {x y : Nat}
    (hx : x < uf.repr.length) (hy : y < uf.repr.length)
    (hne : uf.rootOf x ≠ uf.rootOf y) :
    uf.merge x y =
      if uf.sizeAt (uf.rootOf y) > uf.sizeAt (uf.rootOf x)
      then mergeCore ((uf.find x).2.find y).2 (uf.rootOf y) (uf.rootOf x)
      else mergeCore ((uf.find x).2.find y).2 (uf.rootOf x) (uf.rootOf y) := by
  rw [merge_eq h hx hy, if_neg hne, mergeLink_eq]
  have hs : ∀ i, ((uf.find x).2.find y).2.component_size.getD i 0 = uf.sizeAt i :=
    find2_sizeAt h hx hy
  rw [hs (uf.rootOf y), hs (uf.rootOf x)]

/-- All the facts needed about the mergeCore writes performed inside merge,
phrased against the original state: G and P are two distinct
representatives of uf, G absorbs P. -/
theorem mergeCore_facts {uf : union_find} (h : WF uf) {x y : Nat}
    (hx : x < uf.repr.length) (hy : y < uf.repr.length)
    {G P : Nat} (hG : uf.isRoot G) (hP : uf.isRoot P)
    (hGn : G < uf.repr.length) (hPn : P < uf.repr.length) (hGP : G ≠ P) :
    WF (mergeCore ((uf.find x).2.find y).2 G P)
    ∧ (mergeCore ((uf.find x).2.find y).2 G P).repr.length = uf.repr.length
    ∧ (mergeCore ((uf.find x).2.find y).2 G P).step P = G
    ∧ (mergeCore ((uf.find x).2.find y).2 G P).sizeAt G = uf.sizeAt G + uf.sizeAt P
    ∧ (mergeCore ((uf.find x).2.find y).2 G P).sizeAt P = 0
    ∧ (∀ i, i ≠ G → i ≠ P →
        (mergeCore ((uf.find x).2.find y).2 G P).sizeAt i = uf.sizeAt i)
    ∧ (∀ b, (mergeCore ((uf.find x).2.find y).2 G P).rootOf b
        = if uf.rootOf b = P then G else uf.rootOf b)
    ∧ (mergeCore ((uf.find x).2.find y).2 G P).comp G = uf.comp G ∪ uf.comp P
    ∧ (∀ r, r ≠ G → r ≠ P →
        (mergeCore ((uf.find x).2.find y).2 G P).comp r = uf.comp r)
    ∧ (mergeCore ((uf.find x).2.find y).2 G P).infoAt G
        = (min (uf.infoAt G).1 (uf.infoAt P).1, max (uf.infoAt G).2 (uf.infoAt P).2)
    ∧ (∀ i, i ≠ G → (mergeCore ((uf.find x).2.find y).2 G P).infoAt i = uf.infoAt i)
    ∧ (∀ b, ((mergeCore ((uf.find x).2.find y).2 G P).isRoot b
        ↔ (uf.isRoot b ∧ b ≠ P))) := by
  have h2 : WF ((uf.find x).2.find y).2 := find2_WF h hx hy
  have hlen : ((uf.find x).2.find y).2.repr.length = uf.repr.length :=
    find2_len h hx hy
  have hG2 : ((uf.find x).2.find y).2.isRoot G := (find2_isRoot h hx hy G).mpr hG
  have hP2 : ((uf.find x).2.find y).2.isRoot P := (find2_isRoot h hx hy P).mpr hP
  have hGn2 : G < ((uf.find x).2.find y).2.repr.length := by
    rw [hlen]
    exact hGn
  have hPn2 : P < ((uf.find x).2.find y).2.repr.length := by
    rw [hlen]
    exact hPn
  have hPG : P ≠ G := fun hc => hGP hc.symm
  have hGs2 : G < ((uf.find x).2.find y).2.component_size.length := by
    rw [h2.len_size]
    exact hGn2
  have hGi2 : G < ((uf.find x).2.find y).2.additionalInfo.length := by
    rw [h2.len_info]
    exact hGn2
  obtain ⟨hsG, hsP, hsO⟩ := mergeCore_sizeAt hGP hGs2
  obtain ⟨hinfoG, hinfoO⟩ := @mergeCore_infoAt ((uf.find x).2.find y).2 G P hGi2
  refine ⟨WF_mergeCore h2 hG2 hP2 hGn2 hPn2 hGP, ?_, ?_, ?_, ?_, ?_, ?_, ?_, ?_, ?_, ?_, ?_⟩
  · rw [mergeCore_repr_length, hlen]
  · rw [step_mergeCore hPn2, if_pos rfl]
  · rw [hsG, find2_sizeAt h hx hy, find2_sizeAt h hx hy]
  · exact hsP
  · intro i hiG hiP
    rw [hsO i hiG hiP, find2_sizeAt h hx hy]
  · intro b
    rw [mergeCore_rootOf h2 hG2 hP2 hGn2 hPn2 hPG b, find2_rootOf h hx hy b]
  · rw [mergeCore_comp_absorbing h2 hG2 hP2 hGn2 hPn2 hPG,
      find2_comp h hx hy, find2_comp h hx hy]
  · intro r hrG hrP
    rw [mergeCore_comp_other h2 hG2 hP2 hGn2 hPn2 hPG hrG hrP, find2_comp h hx hy]
  · rw [hinfoG, find2_infoAt h hx hy, find2_infoAt h hx hy]
  · intro i hiG
    rw [hinfoO i hiG, find2_infoAt h hx hy]
  · intro b
    exact (mergeCore_isRoot hPn2 hGP b).trans
      (and_congr (find2_isRoot h hx hy b) Iff.rfl)

theorem WF_merge {uf : union_find} (h : WF uf) {x y : Nat}
    (hx : x < uf.repr.length) (hy : y < uf.repr.length) : WF (uf.merge x y) := by
  by_cases hne : uf.rootOf x = uf.rootOf y
  · rw [merge_eq h hx hy, if_pos hne]
    exact find2_WF h hx hy
  · rw [merge_eq_mergeCore h hx hy hne]
    by_cases hc : uf.sizeAt (uf.rootOf y) > uf.sizeAt (uf.rootOf x)
    · rw [if_pos hc]
      exact (mergeCore_facts h hx hy (h.isRoot_rootOf hy) (h.isRoot_rootOf hx)
        (h.rootOf_lt hy) (h.rootOf_lt hx) (fun hc2 => hne hc2.symm)).1
    · rw [if_neg hc]
      exact (mergeCore_facts h hx hy (h.isRoot_rootOf hx) (h.isRoot_rootOf hy)
        (h.rootOf_lt hx) (h.rootOf_lt hy) hne).1

/-- Every reachable state is well-formed: the data-model invariants hold
after construction and after every completed operation. -/
theorem Reachable.WF {uf : union_find} (h : Reachable uf) : WF uf := by
  induction h with
  | init m => exact WF_init m
  | merge x y hr hx hy ih => exact WF_merge ih hx hy
  | find a hr ha ih => exact WF_find ih ha

/-! count_islands: the fold over component_size counts the indices holding
a positive size. -/

theorem foldl_count_eq_countP (l : List Nat) :
    l.foldl (fun count el => if el > 0 then count + 1 else count) 0
      = l.countP (fun el => decide (0 < el)) := by
  induction l using List.reverseRecOn with
  | nil => rfl
  | append_singleton t a ih =>
    simp only [List.foldl_append, List.foldl_cons, List.foldl_nil]
    rw [ih, List.countP_append]
    by_cases ha : a > 0
    · rw [if_pos ha]
      simp [List.countP_cons, ha]
    · rw [if_neg ha]
      simp [List.countP_cons, ha]

theorem countP_pos_eq_card_filter (l : List Nat) :
    l.countP (fun el => decide (0 < el))
      = ((Finset.range l.length).filter (fun i => 0 < l.getD i 0)).card := by
  induction l using List.reverseRecOn with
  | nil => rfl
  | append_singleton t a ih =>
    rw [List.countP_append, ih, Finset.card_filter, Finset.card_filter,
      List.length_append, List.length_singleton, Finset.sum_range_succ]
    have hval : (t ++ [a]).getD t.length 0 = a := by
      rw [List.getD_eq_getElem?_getD, List.getElem?_append_right (le_refl t.length),
        Nat.sub_self]
      rfl
    have hcong : ∀ i ∈ Finset.range t.length,
        (if 0 < (t ++ [a]).getD i 0 then (1 : Nat) else 0)
          = (if 0 < t.getD i 0 then (1 : Nat) else 0) := by
      intro i hi
      rw [Finset.mem_range] at hi
      rw [List.getD_eq_getElem?_getD, List.getElem?_append_left hi,
        ← List.getD_eq_getElem?_getD]
    rw [Finset.sum_congr rfl hcong, hval]
    by_cases ha : 0 < a
    · simp [List.countP_cons, ha]
    · simp [List.countP_cons, ha]

theorem count_islands_eq (uf : union_find) :
    uf.count_islands = ((Finset.range uf.component_size.length).filter
      (fun i => 0 < uf.component_size.getD i 0)).card := by
  show uf.component_size.foldl _ 0 = _
  rw [foldl_count_eq_countP, countP_pos_eq_card_filter]

theorem WF.size_pos_iff_isRoot {uf : union_find} (h : WF uf) {i : Nat}
    (hi : i < uf.repr.length) : 0 < uf.sizeAt i ↔ uf.isRoot i := by
  constructor
  · intro hpos
    by_contra hroot
    rw [h.size_nonroot i hi hroot] at hpos
    exact absurd hpos (lt_irrefl 0)
  · intro hroot
    rw [h.size_root i hi hroot, Finset.card_pos]
    exact ⟨i, mem_comp_self hi hroot⟩

theorem count_islands_eq_roots {uf : union_find} (h : WF uf) :
    uf.count_islands
      = ((Finset.range uf.repr.length).filter (fun r => uf.isRoot r)).card := by
  rw [count_islands_eq, h.len_size]
  refine congrArg Finset.card ?_
  apply Finset.filter_congr
  intro i hi
  rw [Finset.mem_range] at hi
  exact h.size_pos_iff_isRoot hi

theorem roots_eq_image_rootOf {uf : union_find} (h : WF uf) :
    (Finset.range uf.repr.length).filter (fun r => uf.isRoot r)
      = (Finset.range uf.repr.length).image (fun a => uf.rootOf a) := by
  ext r
  simp only [Finset.mem_filter, Finset.mem_range, Finset.mem_image]
  constructor
  · rintro ⟨hr, hroot⟩
    exact ⟨r, hr, rootOf_eq_self hroot⟩
  · rintro ⟨a, ha, rfl⟩
    exact ⟨h.rootOf_lt ha, h.isRoot_rootOf ha⟩

theorem count_islands_mergeCore {uf : union_find} (h : WF uf) {x y : Nat}
    (hx : x < uf.repr.length) (hy : y < uf.repr.length)
    {G P : Nat} (hG : uf.isRoot G) (hP : uf.isRoot P)
    (hGn : G < uf.repr.length) (hPn : P < uf.repr.length) (hGP : G ≠ P) :
    (mergeCore ((uf.find x).2.find y).2 G P).count_islands + 1 = uf.count_islands := by
  obtain ⟨hWF, hlen, _, hsG, hsP, hsO, _, _, _, _, _, _⟩ :=
    mergeCore_facts h hx hy hG hP hGn hPn hGP
  have hsG' : (mergeCore ((uf.find x).2.find y).2 G P).component_size.getD G 0
      = uf.sizeAt G + uf.sizeAt P := hsG
  have hsP' : (mergeCore ((uf.find x).2.find y).2 G P).component_size.getD P 0 = 0 := hsP
  have hsO' : ∀ i, i ≠ G → i ≠ P →
      (mergeCore ((uf.find x).2.find y).2 G P).component_size.getD i 0
        = uf.component_size.getD i 0 := hsO
  rw [count_islands_eq, count_islands_eq, hWF.len_size, hlen, h.len_size]
  have hPmem : P ∈ (Finset.range uf.repr.length).filter
      (fun i => 0 < uf.component_size.getD i 0) := by
    rw [Finset.mem_filter, Finset.mem_range]
    exact ⟨hPn, (h.size_pos_iff_isRoot hPn).mpr hP⟩
  have hset : (Finset.range uf.repr.length).filter
      (fun i => 0 < (mergeCore ((uf.find x).2.find y).2 G P).component_size.getD i 0)
      = ((Finset.range uf.repr.length).filter
          (fun i => 0 < uf.component_size.getD i 0)).erase P := by
    ext i
    rw [Finset.mem_erase, Finset.mem_filter, Finset.mem_filter, Finset.mem_range]
    constructor
    · rintro ⟨hi, hpos⟩
      by_cases hiP : i = P
      · rw [hiP, hsP'] at hpos
        exact absurd hpos (lt_irrefl 0)
      · refine ⟨hiP, hi, ?_⟩
        by_cases hiG : i = G
        · rw [hiG]
          exact (h.size_pos_iff_isRoot hGn).mpr hG
        · rw [← hsO' i hiG hiP]
          exact hpos
    · rintro ⟨hiP, hi, hpos⟩
      refine ⟨hi, ?_⟩
      by_cases hiG : i = G
      · rw [hiG, hsG']
        have hpg : 0 < uf.sizeAt G := (h.size_pos_iff_isRoot hGn).mpr hG
        omega
      · rw [hsO' i hiG hiP]
        exact hpos
  rw [hset, Finset.card_erase_add_one hPmem]

/-! Stability of find, fuel irrelevance, and the observable values of the
size and get operations. -/

theorem findAux_root {uf : union_find} {a : Nat} (h : uf.isRoot a) (fuel : Nat) :
    findAux fuel uf a = (a, uf) := by
  cases fuel with
  | zero => rfl
  | succ f => rw [findAux_succ, if_pos (show uf.step a = a from h)]

/-- Any two fuel values at least the root-hitting time give the same
result: the recursion in find needs no more fuel than that. -/
theorem findAux_fuel_eq {uf : union_find} {a k : Nat}
    (hroot : uf.isRoot (uf.iterStep k a)) :
    ∀ {f1 f2 : Nat}, k ≤ f1 → k ≤ f2 → findAux f1 uf a = findAux f2 uf a := by
  induction k generalizing uf a with
  | zero =>
    intro f1 f2 _ _
    have hra : uf.isRoot a := hroot
    rw [findAux_root hra, findAux_root hra]
  | succ k ih =>
    intro f1 f2 h1 h2
    by_cases hra : uf.isRoot a
    · rw [findAux_root hra, findAux_root hra]
    · have hroot' : uf.isRoot (uf.iterStep k (uf.step a)) := by
        rw [← iterStep_succ]
        exact hroot
      cases f1 with
      | zero => omega
      | succ f1 =>
        cases f2 with
        | zero => omega
        | succ f2 =>
          rw [findAux_succ, findAux_succ,
            if_neg (show ¬ uf.step a = a from hra),
            if_neg (show ¬ uf.step a = a from hra),
            ih hroot' (by omega) (by omega : k ≤ f2)]

theorem getElem?_of_getD {α : Type} {l : List α} {i : Nat} (h : i < l.length)
    (d : α) : l[i]? = some (l.getD i d) := by
  rw [List.getD_eq_getElem?_getD, List.getElem?_eq_getElem h]
  rfl

theorem list_set_self {α : Type} {l : List α} {i : Nat} {v : α}
    (h : l[i]? = some v) : l.set i v = l := by
  have hi : i < l.length := by
    rcases List.getElem?_eq_some.mp h with ⟨hlt, _⟩
    exact hlt
  apply List.ext_getElem?
  intro j
  by_cases hj : j = i
  · rw [hj, List.getElem?_set_self hi]
    exact h.symm
  · rw [List.getElem?_set_ne (fun hc => hj hc.symm)]

/-- Calling find again right after a find returns the same representative
and leaves the state untouched: the compression is complete. -/
theorem find_stable {uf : union_find} (h : WF uf) {a : Nat}
    (ha : a < uf.repr.length) :
    (uf.find a).2.find a = ((uf.find a).1, (uf.find a).2) := by
  by_cases hra : uf.isRoot a
  · have he : uf.find a = (a, uf) := findAux_root hra uf.repr.length
    rw [he]
    exact he
  · obtain ⟨h1, _, _, h4, h5, _, _⟩ := find_spec h ha
    have hstepa : (uf.find a).2.step a = (uf.find a).1 := h5 a (pathNode_self hra)
    have hr_root : uf.isRoot (uf.find a).1 := h1.2
    have hroot' : (uf.find a).2.isRoot (uf.find a).1 :=
      (find_isRoot_iff h ha _).mpr hr_root
    have hne : ¬ (uf.find a).2.step a = a := by
      rw [hstepa]
      intro hc
      exact hra (by rw [← hc]; exact hr_root)
    have ha' : a < (uf.find a).2.repr.length := by
      rw [h4]
      exact ha
    have h9 : (uf.find a).2.repr[a]? = some ((uf.find a).2.step a) :=
      getElem?_of_getD ha' a
    rw [hstepa] at h9
    cases hn2 : (uf.find a).2.repr.length with
    | zero => omega
    | succ m =>
      show findAux ((uf.find a).2.repr.length) (uf.find a).2 a = _
      rw [hn2, findAux_succ, if_neg hne, hstepa, findAux_root hroot' m,
        list_set_self h9]

theorem size_fst {uf : union_find} (h : WF uf) {a : Nat}
    (ha : a < uf.repr.length) : (uf.size a).1 = uf.sizeAt (uf.rootOf a) := by
  show (uf.find a).2.component_size.getD (uf.find a).1 0 = _
  rw [(find_spec h ha).2.1, find_fst h ha]
  rfl

theorem get_fst {uf : union_find} (h : WF uf) {u v : Nat}
    (hu : u < uf.repr.length) (hv : v < uf.repr.length) :
    (uf.get u v).1 = decide (uf.rootOf u = uf.rootOf v) := by
  show decide ((uf.find u).1 = ((uf.find u).2.find v).1) = _
  rw [find_fst h hu, find2_fst h hu hv]

/-- When both arguments already share a representative, merge changes
nothing observable: sizes list, aggregates list, length and all
representatives are those of the state after the two reads. -/
theorem merge_same_facts {uf : union_find} (h : WF uf) {x y : Nat}
    (hx : x < uf.repr.length) (hy : y < uf.repr.length)
    (hsame : uf.rootOf x = uf.rootOf y) :
    (uf.merge x y).component_size = uf.component_size
    ∧ (uf.merge x y).additionalInfo = uf.additionalInfo
    ∧ (uf.merge x y).repr.length = uf.repr.length
    ∧ (∀ b, (uf.merge x y).rootOf b = uf.rootOf b)
    ∧ (∀ i, (uf.merge x y).sizeAt i = uf.sizeAt i)
    ∧ (∀ i, (uf.merge x y).infoAt i = uf.infoAt i)
    ∧ (∀ r, (uf.merge x y).comp r = uf.comp r) := by
  rw [merge_eq h hx hy, if_pos hsame]
  have hcs : ((uf.find x).2.find y).2.component_size = uf.component_size := by
    rw [(find_spec (WF_find h hx) (hy_after_find h hx hy)).2.1, (find_spec h hx).2.1]
  have hinfo : ((uf.find x).2.find y).2.additionalInfo = uf.additionalInfo := by
    rw [(find_spec (WF_find h hx) (hy_after_find h hx hy)).2.2.1,
      (find_spec h hx).2.2.1]
  exact ⟨hcs, hinfo, find2_len h hx hy, find2_rootOf h hx hy,
    find2_sizeAt h hx hy, find2_infoAt h hx hy, find2_comp h hx hy⟩

theorem merge_repr_length {uf : union_find} (h : WF uf) {x y : Nat}
    (hx : x < uf.repr.length) (hy : y < uf.repr.length) :
    (uf.merge x y).repr.length = uf.repr.length := by
  by_cases hne : uf.rootOf x = uf.rootOf y
  · exact (merge_same_facts h hx hy hne).2.2.1
  · rw [merge_eq_mergeCore h hx hy hne]
    by_cases hc : uf.sizeAt (uf.rootOf y) > uf.sizeAt (uf.rootOf x)
    · rw [if_pos hc]
      exact (mergeCore_facts h hx hy (h.isRoot_rootOf hy) (h.isRoot_rootOf hx)
        (h.rootOf_lt hy) (h.rootOf_lt hx) (fun hc2 => hne hc2.symm)).2.1
    · rw [if_neg hc]
      exact (mergeCore_facts h hx hy (h.isRoot_rootOf hx) (h.isRoot_rootOf hy)
        (h.rootOf_lt hx) (h.rootOf_lt hy) hne).2.1

theorem count_islands_merge_same {uf : union_find} (h : WF uf) {x y : Nat}
    (hx : x < uf.repr.length) (hy : y < uf.repr.length)
    (hsame : uf.rootOf x = uf.rootOf y) :
    (uf.merge x y).count_islands = uf.count_islands := by
  show (uf.merge x y).component_size.foldl _ 0 = _
  rw [(merge_same_facts h hx hy hsame).1]
  rfl

theorem count_islands_merge_diff {uf : union_find} (h : WF uf) {x y : Nat}
    (hx : x < uf.repr.length) (hy : y < uf.repr.length)
    (hne : uf.rootOf x ≠ uf.rootOf y) :
    (uf.merge x y).count_islands + 1 = uf.count_islands := by
  rw [merge_eq_mergeCore h hx hy hne]
  by_cases hc : uf.sizeAt (uf.rootOf y) > uf.sizeAt (uf.rootOf x)
  · rw [if_pos hc]
    exact count_islands_mergeCore h hx hy (h.isRoot_rootOf hy) (h.isRoot_rootOf hx)
      (h.rootOf_lt hy) (h.rootOf_lt hx) (fun hc2 => hne hc2.symm)
  · rw [if_neg hc]
    exact count_islands_mergeCore h hx hy (h.isRoot_rootOf hx) (h.isRoot_rootOf hy)
      (h.rootOf_lt hx) (h.rootOf_lt hy) hne

/-! The claims. -/

/-- C1: for a valid identifier a on a reachable state, find returns the
representative of a's component — the unique fixed point reached by
iterating the repr walk from a — as a side effect every node visited on
the walk is re-pointed directly at that representative while entries off
the walk are untouched, and an immediately repeated find returns the same
representative with no further state change. -/
theorem C1_find_correct {uf : union_find} (h : Reachable uf) {a : Nat}
    (ha : a < uf.repr.length) :
    uf.Rooted a (uf.find a).1
    ∧ (∀ r, uf.Rooted a r → r = (uf.find a).1)
    ∧ (uf.find a).1 = uf.rootOf a
    ∧ (∀ b, uf.PathNode a b → (uf.find a).2.step b = (uf.find a).1)
    ∧ (∀ b, ¬ uf.PathNode a b → (uf.find a).2.step b = uf.step b)
    ∧ (uf.find a).2.find a = ((uf.find a).1, (uf.find a).2) := by
  have hw := h.WF
  obtain ⟨h1, _, _, _, h5, h6, _⟩ := find_spec hw ha
  exact ⟨h1, fun r hr => Rooted.unique hr h1, find_fst hw ha, h5, h6,
    find_stable hw ha⟩

/-- C2: on every reachable state, for every representative r the stored
size equals the number of elements whose ultimate representative is r,
every absorbed (non-representative) index stores size 0, and the sizes
stored at the distinct representatives sum to the element count. -/
theorem C2_sizes {uf : union_find} (h : Reachable uf) :
    (∀ r < uf.repr.length, uf.isRoot r → uf.sizeAt r = (uf.comp r).card)
    ∧ (∀ i < uf.repr.length, ¬ uf.isRoot i → uf.sizeAt i = 0)
    ∧ (∑ r ∈ (Finset.range uf.repr.length).filter (fun r => uf.isRoot r),
        uf.sizeAt r) = uf.repr.length := by
  have hw := h.WF
  refine ⟨hw.size_root, hw.size_nonroot, ?_⟩
  have hmem : ∀ a ∈ Finset.range uf.repr.length,
      uf.rootOf a ∈ (Finset.range uf.repr.length).filter (fun r => uf.isRoot r) := by
    intro a ha
    rw [Finset.mem_range] at ha
    rw [Finset.mem_filter, Finset.mem_range]
    exact ⟨hw.rootOf_lt ha, hw.isRoot_rootOf ha⟩
  have hfib := Finset.card_eq_sum_card_fiberwise hmem
  have hstep1 : (∑ r ∈ (Finset.range uf.repr.length).filter (fun r => uf.isRoot r),
      uf.sizeAt r)
      = ∑ r ∈ (Finset.range uf.repr.length).filter (fun r => uf.isRoot r),
        ((Finset.range uf.repr.length).filter (fun i => uf.rootOf i = r)).card := by
    refine Finset.sum_congr rfl ?_
    intro r hr
    rw [Finset.mem_filter, Finset.mem_range] at hr
    exact hw.size_root r hr.1 hr.2
  rw [hstep1]
  refine Eq.trans ?_ (Finset.card_range uf.repr.length)
  exact hfib.symm

/-- C3: after any sequence of merges from construction, the aggregate
stored at a representative r is exactly the (minimum, maximum) of the set
of original element indices in r's component, and at construction every
entry i is initialized to (i, i). -/
theorem C3_info {uf : union_find} (h : Reachable uf) :
    (∀ r < uf.repr.length, uf.isRoot r →
      ((uf.infoAt r).1 ∈ uf.comp r ∧ ∀ i ∈ uf.comp r, (uf.infoAt r).1 ≤ i)
      ∧ ((uf.infoAt r).2 ∈ uf.comp r ∧ ∀ i ∈ uf.comp r, i ≤ (uf.infoAt r).2))
    ∧ (∀ (m : Int) (i : Nat), i < (union_find.init m).repr.length →
        (union_find.init m).infoAt i = (i, i)) :=
  ⟨fun r hr hroot => ⟨h.WF.info_min r hr hroot, h.WF.info_max r hr hroot⟩,
    fun m i hi => init_infoAt (by rw [init_repr_length] at hi; exact hi)⟩

/-- C9: on every reachable state the repr walk from any valid element
reaches a fixed point in fewer than n steps, and the recursion in find is
exhausted below any fuel of at least n: all such fuel values give the very
result the modelled find returns, so the operations terminate. -/
theorem C9_termination {uf : union_find} (h : Reachable uf) {a : Nat}
    (ha : a < uf.repr.length) :
    (∃ k, k < uf.repr.length ∧ uf.isRoot (uf.iterStep k a))
    ∧ (∀ fuel, uf.repr.length ≤ fuel → findAux fuel uf a = uf.find a) := by
  have hw := h.WF
  obtain ⟨k, hk, hroot⟩ := exists_root_lt hw.parent_lt ha (hw.reaches a ha)
  refine ⟨⟨k, hk, hroot⟩, ?_⟩
  intro fuel hfuel
  exact findAux_fuel_eq hroot (by omega) (by omega : k ≤ uf.repr.length)

/-- C4: count_islands returns the number of indices holding a strictly
positive stored size, and that number equals the number of distinct
components (distinct representatives); a union call on two elements of the
same component leaves it unchanged, on two different components it
decreases it by exactly 1, so it is non-increasing. -/
theorem C4_count {uf : union_find} (h : Reachable uf) {x y : Nat}
    (hx : x < uf.repr.length) (hy : y < uf.repr.length) :
    uf.count_islands = ((Finset.range uf.component_size.length).filter
        (fun i => 0 < uf.component_size.getD i 0)).card
    ∧ uf.count_islands
        = ((Finset.range uf.repr.length).image (fun a => uf.rootOf a)).card
    ∧ ((uf.get x y).1 = true → (uf.merge x y).count_islands = uf.count_islands)
    ∧ ((uf.get x y).1 = false →
        (uf.merge x y).count_islands + 1 = uf.count_islands)
    ∧ (uf.merge x y).count_islands ≤ uf.count_islands := by
  have hw := h.WF
  have hget : (uf.get x y).1 = decide (uf.rootOf x = uf.rootOf y) :=
    get_fst hw hx hy
  have hsame : ∀ hc : uf.rootOf x = uf.rootOf y,
      (uf.merge x y).count_islands = uf.count_islands :=
    fun hc => count_islands_merge_same hw hx hy hc
  have hdiff : ∀ hc : uf.rootOf x ≠ uf.rootOf y,
      (uf.merge x y).count_islands + 1 = uf.count_islands :=
    fun hc => count_islands_merge_diff hw hx hy hc
  refine ⟨count_islands_eq uf, ?_, ?_, ?_, ?_⟩
  · rw [count_islands_eq_roots hw, roots_eq_image_rootOf hw]
  · intro htrue
    rw [hget] at htrue
    exact hsame (of_decide_eq_true htrue)
  · intro hfalse
    rw [hget] at hfalse
    exact hdiff (of_decide_eq_false hfalse)
  · by_cases hc : uf.rootOf x = uf.rootOf y
    · rw [hsame hc]
    · have := hdiff hc
      omega

/-- C5: when x and y lie in different components, merge re-points the
representative of the strictly smaller component at the representative of
the strictly larger one, and in every case (ties included) the surviving
representative's stored size becomes the sum of both previous sizes while
the absorbed representative's stored size becomes 0. -/
theorem C5_merge_sizes {uf : union_find} (h : Reachable uf) {x y : Nat}
    (hx : x < uf.repr.length) (hy : y < uf.repr.length)
    (hne : uf.rootOf x ≠ uf.rootOf y) :
    (uf.sizeAt (uf.rootOf x) < uf.sizeAt (uf.rootOf y) →
      (uf.merge x y).step (uf.rootOf x) = uf.rootOf y
      ∧ (uf.merge x y).sizeAt (uf.rootOf y)
          = uf.sizeAt (uf.rootOf x) + uf.sizeAt (uf.rootOf y)
      ∧ (uf.merge x y).sizeAt (uf.rootOf x) = 0)
    ∧ (uf.sizeAt (uf.rootOf y) < uf.sizeAt (uf.rootOf x) →
      (uf.merge x y).step (uf.rootOf y) = uf.rootOf x
      ∧ (uf.merge x y).sizeAt (uf.rootOf x)
          = uf.sizeAt (uf.rootOf x) + uf.sizeAt (uf.rootOf y)
      ∧ (uf.merge x y).sizeAt (uf.rootOf y) = 0)
    ∧ (uf.sizeAt (uf.rootOf y) = uf.sizeAt (uf.rootOf x) →
      (uf.merge x y).step (uf.rootOf y) = uf.rootOf x
      ∧ (uf.merge x y).sizeAt (uf.rootOf x)
          = uf.sizeAt (uf.rootOf x) + uf.sizeAt (uf.rootOf y)
      ∧ (uf.merge x y).sizeAt (uf.rootOf y) = 0) := by
  have hw := h.WF
  have hne' : uf.rootOf y ≠ uf.rootOf x := fun hc => hne hc.symm
  refine ⟨?_, ?_, ?_⟩
  · intro hlt
    have heq := merge_eq_mergeCore hw hx hy hne
    rw [if_pos hlt] at heq
    obtain ⟨_, _, hstep, hsG, hsP, _, _, _, _, _, _, _⟩ :=
      mergeCore_facts hw hx hy (hw.isRoot_rootOf hy) (hw.isRoot_rootOf hx)
        (hw.rootOf_lt hy) (hw.rootOf_lt hx) hne'
    rw [heq]
    exact ⟨hstep, by rw [hsG, Nat.add_comm], hsP⟩
  · intro hlt
    have hc : ¬ uf.sizeAt (uf.rootOf y) > uf.sizeAt (uf.rootOf x) := by omega
    have heq := merge_eq_mergeCore hw hx hy hne
    rw [if_neg hc] at heq
    obtain ⟨_, _, hstep, hsG, hsP, _, _, _, _, _, _, _⟩ :=
      mergeCore_facts hw hx hy (hw.isRoot_rootOf hx) (hw.isRoot_rootOf hy)
        (hw.rootOf_lt hx) (hw.rootOf_lt hy) hne
    rw [heq]
    exact ⟨hstep, hsG, hsP⟩
  · intro hseq
    have hc : ¬ uf.sizeAt (uf.rootOf y) > uf.sizeAt (uf.rootOf x) := by omega
    have heq := merge_eq_mergeCore hw hx hy hne
    rw [if_neg hc] at heq
    obtain ⟨_, _, hstep, hsG, hsP, _, _, _, _, _, _, _⟩ :=
      mergeCore_facts hw hx hy (hw.isRoot_rootOf hx) (hw.isRoot_rootOf hy)
        (hw.rootOf_lt hx) (hw.rootOf_lt hy) hne
    rw [heq]
    exact ⟨hstep, hsG, hsP⟩

/-- C10: merging two distinct components of exactly equal size keeps the
first argument's (gravity's) representative as the surviving root and
re-points the second argument's (pebble's) representative at it — the swap
to the second argument happens only when its component is strictly
larger. -/
theorem C10_tie_break {uf : union_find} (h : Reachable uf) {x y : Nat}
    (hx : x < uf.repr.length) (hy : y < uf.repr.length)
    (hne : uf.rootOf x ≠ uf.rootOf y)
    (hsz : uf.sizeAt (uf.rootOf x) = uf.sizeAt (uf.rootOf y)) :
    (uf.merge x y).step (uf.rootOf y) = uf.rootOf x
    ∧ (uf.merge x y).isRoot (uf.rootOf x)
    ∧ (uf.merge x y).sizeAt (uf.rootOf x)
        = uf.sizeAt (uf.rootOf x) + uf.sizeAt (uf.rootOf y)
    ∧ (uf.merge x y).sizeAt (uf.rootOf y) = 0 := by
  have hw := h.WF
  have hc : ¬ uf.sizeAt (uf.rootOf y) > uf.sizeAt (uf.rootOf x) := by omega
  have heq := merge_eq_mergeCore hw hx hy hne
  rw [if_neg hc] at heq
  obtain ⟨_, _, hstep, hsG, hsP, _, _, _, _, _, _, hisRoot⟩ :=
    mergeCore_facts hw hx hy (hw.isRoot_rootOf hx) (hw.isRoot_rootOf hy)
      (hw.rootOf_lt hx) (hw.rootOf_lt hy) hne
  rw [heq]
  exact ⟨hstep, (hisRoot (uf.rootOf x)).mpr ⟨hw.isRoot_rootOf hx, hne⟩, hsG, hsP⟩

/-- C6: when x and y are already in the same component, merge is
observably a no-op: every same-component query between valid elements and
every component-size query answers exactly as before the call. -/
theorem C6_idempotent {uf : union_find} (h : Reachable uf) {x y : Nat}
    (hx : x < uf.repr.length) (hy : y < uf.repr.length)
    (hsame : (uf.get x y).1 = true) :
    (∀ u v, u < uf.repr.length → v < uf.repr.length →
      ((uf.merge x y).get u v).1 = (uf.get u v).1)
    ∧ (∀ a, a < uf.repr.length → ((uf.merge x y).size a).1 = (uf.size a).1) := by
  have hw := h.WF
  have hroot_eq : uf.rootOf x = uf.rootOf y := by
    rw [get_fst hw hx hy] at hsame
    exact of_decide_eq_true hsame
  have hM : Reachable (uf.merge x y) := Reachable.merge x y h hx hy
  have hwM := hM.WF
  obtain ⟨_, _, hlen, hroots, hsizes, _, _⟩ := merge_same_facts hw hx hy hroot_eq
  constructor
  · intro u v hu hv
    rw [get_fst hwM (by rw [hlen]; exact hu) (by rw [hlen]; exact hv),
      get_fst hw hu hv, hroots u, hroots v]
  · intro a ha
    rw [size_fst hwM (by rw [hlen]; exact ha), size_fst hw ha, hroots a, hsizes]

/-- C8 counterexample: constructing with the negative count -1 raises no
error at all — it returns exactly the same empty structure as count 0, so
the claimed InvalidArgument failure does not happen. -/
theorem C8_counterexample :
    union_find.init (-1) = union_find.init 0
    ∧ (union_find.init (-1)).repr.length = 0
    ∧ (union_find.init (-1)).count_islands = 0 :=
  ⟨rfl, rfl, rfl⟩

/-- C8 amended: construction never fails; a negative element count yields
the same empty, valid structure as count 0, any count m yields a
well-formed structure of m.toNat elements, and n == 0 yields an empty,
valid structure. -/
theorem C8_init (m : Int) :
    (m < 0 → union_find.init m = union_find.init 0)
    ∧ (union_find.init m).repr.length = m.toNat
    ∧ WF (union_find.init m)
    ∧ (union_find.init 0).repr.length = 0 := by
  refine ⟨?_, init_repr_length m, WF_init m, rfl⟩
  intro hm
  unfold init
  rw [Int.toNat_of_nonpos (le_of_lt hm)]
  rfl

/-! Concrete witnesses: five elements with 0 and 1 merged. -/

/-- A small concrete reachable state used by the witnesses below. -/
def sample : union_find := (union_find.init 5).merge 0 1

theorem sample_reachable : Reachable sample :=
  Reachable.merge 0 1 (Reachable.init 5) (by decide) (by decide)

/-- C1 witness: find on element 1 of the sample state. -/
theorem C1_witness :
    Reachable sample ∧ 1 < sample.repr.length
    ∧ (sample.Rooted 1 (sample.find 1).1
      ∧ (∀ r, sample.Rooted 1 r → r = (sample.find 1).1)
      ∧ (sample.find 1).1 = sample.rootOf 1
      ∧ (∀ b, sample.PathNode 1 b → (sample.find 1).2.step b = (sample.find 1).1)
      ∧ (∀ b, ¬ sample.PathNode 1 b → (sample.find 1).2.step b = sample.step b)
      ∧ (sample.find 1).2.find 1 = ((sample.find 1).1, (sample.find 1).2)) :=
  ⟨sample_reachable, by decide, C1_find_correct sample_reachable (by decide)⟩

/-- C2 witness: the size invariants on the sample state. -/
theorem C2_witness :
    Reachable sample
    ∧ ((∀ r < sample.repr.length, sample.isRoot r →
          sample.sizeAt r = (sample.comp r).card)
      ∧ (∀ i < sample.repr.length, ¬ sample.isRoot i → sample.sizeAt i = 0)
      ∧ (∑ r ∈ (Finset.range sample.repr.length).filter
            (fun r => sample.isRoot r), sample.sizeAt r) = sample.repr.length) :=
  ⟨sample_reachable, C2_sizes sample_reachable⟩

/-- C3 witness: the aggregate invariants on the sample state. -/
theorem C3_witness :
    Reachable sample
    ∧ ((∀ r < sample.repr.length, sample.isRoot r →
        (((sample.infoAt r).1 ∈ sample.comp r
            ∧ ∀ i ∈ sample.comp r, (sample.infoAt r).1 ≤ i)
          ∧ ((sample.infoAt r).2 ∈ sample.comp r
            ∧ ∀ i ∈ sample.comp r, i ≤ (sample.infoAt r).2)))
      ∧ (∀ (m : Int) (i : Nat), i < (union_find.init m).repr.length →
          (union_find.init m).infoAt i = (i, i))) :=
  ⟨sample_reachable, C3_info sample_reachable⟩

/-- C4 witness: counting on the sample state, union arguments 0 and 2. -/
theorem C4_witness :
    Reachable sample ∧ 0 < sample.repr.length ∧ 2 < sample.repr.length
    ∧ (sample.count_islands = ((Finset.range sample.component_size.length).filter
          (fun i => 0 < sample.component_size.getD i 0)).card
      ∧ sample.count_islands
          = ((Finset.range sample.repr.length).image (fun a => sample.rootOf a)).card
      ∧ ((sample.get 0 2).1 = true →
          (sample.merge 0 2).count_islands = sample.count_islands)
      ∧ ((sample.get 0 2).1 = false →
          (sample.merge 0 2).count_islands + 1 = sample.count_islands)
      ∧ (sample.merge 0 2).count_islands ≤ sample.count_islands) :=
  ⟨sample_reachable, by decide, by decide,
    C4_count sample_reachable (by decide) (by decide)⟩

/-- C5 witness: merging the size-2 component of 0 with the singleton 2. -/
theorem C5_witness :
    Reachable sample ∧ 0 < sample.repr.length ∧ 2 < sample.repr.length
    ∧ sample.rootOf 0 ≠ sample.rootOf 2
    ∧ ((sample.sizeAt (sample.rootOf 0) < sample.sizeAt (sample.rootOf 2) →
        (sample.merge 0 2).step (sample.rootOf 0) = sample.rootOf 2
        ∧ (sample.merge 0 2).sizeAt (sample.rootOf 2)
            = sample.sizeAt (sample.rootOf 0) + sample.sizeAt (sample.rootOf 2)
        ∧ (sample.merge 0 2).sizeAt (sample.rootOf 0) = 0)
      ∧ (sample.sizeAt (sample.rootOf 2) < sample.sizeAt (sample.rootOf 0) →
        (sample.merge 0 2).step (sample.rootOf 2) = sample.rootOf 0
        ∧ (sample.merge 0 2).sizeAt (sample.rootOf 0)
            = sample.sizeAt (sample.rootOf 0) + sample.sizeAt (sample.rootOf 2)
        ∧ (sample.merge 0 2).sizeAt (sample.rootOf 2) = 0)
      ∧ (sample.sizeAt (sample.rootOf 2) = sample.sizeAt (sample.rootOf 0) →
        (sample.merge 0 2).step (sample.rootOf 2) = sample.rootOf 0
        ∧ (sample.merge 0 2).sizeAt (sample.rootOf 0)
            = sample.sizeAt (sample.rootOf 0) + sample.sizeAt (sample.rootOf 2)
        ∧ (sample.merge 0 2).sizeAt (sample.rootOf 2) = 0)) :=
  ⟨sample_reachable, by decide, by decide, by decide,
    C5_merge_sizes sample_reachable (by decide) (by decide) (by decide)⟩

/-- C6 witness: re-merging the already-merged pair 0 and 1. -/
theorem C6_witness :
    Reachable sample ∧ 0 < sample.repr.length ∧ 1 < sample.repr.length
    ∧ (sample.get 0 1).1 = true
    ∧ ((∀ u v, u < sample.repr.length → v < sample.repr.length →
          ((sample.merge 0 1).get u v).1 = (sample.get u v).1)
      ∧ (∀ a, a < sample.repr.length →
          ((sample.merge 0 1).size a).1 = (sample.size a).1)) :=
  ⟨sample_reachable, by decide, by decide, by decide,
    C6_idempotent sample_reachable (by decide) (by decide) (by decide)⟩

/-- C8 witness: the amended construction claim applied at the concrete
negative count -1, discharging the sign hypothesis there. -/
theorem C8_witness : union_find.init (-1) = union_find.init 0 :=
  (C8_init (-1)).1 (by decide)

/-- C9 witness: termination facts for element 1 of the sample state. -/
theorem C9_witness :
    Reachable sample ∧ 1 < sample.repr.length
    ∧ ((∃ k, k < sample.repr.length ∧ sample.isRoot (sample.iterStep k 1))
      ∧ (∀ fuel, sample.repr.length ≤ fuel →
          findAux fuel sample 1 = sample.find 1)) :=
  ⟨sample_reachable, by decide, C9_termination sample_reachable (by decide)⟩

/-- C10 witness: merging the equal-size singletons 2 and 3. -/
theorem C10_witness :
    Reachable sample ∧ 2 < sample.repr.length ∧ 3 < sample.repr.length
    ∧ sample.rootOf 2 ≠ sample.rootOf 3
    ∧ sample.sizeAt (sample.rootOf 2) = sample.sizeAt (sample.rootOf 3)
    ∧ ((sample.merge 2 3).step (sample.rootOf 3) = sample.rootOf 2
      ∧ (sample.merge 2 3).isRoot (sample.rootOf 2)
      ∧ (sample.merge 2 3).sizeAt (sample.rootOf 2)
          = sample.sizeAt (sample.rootOf 2) + sample.sizeAt (sample.rootOf 3)
      ∧ (sample.merge 2 3).sizeAt (sample.rootOf 3) = 0) :=
  ⟨sample_reachable, by decide, by decide, by decide, by decide,
    C10_tie_break sample_reachable (by decide) (by decide) (by decide) (by decide)⟩

end union_find
